import Mathlib

/-!
Verification of the extended-attribute enumeration core of `src/fs/unix.rs`.

The code lists the extended-attribute names of a file (`xattr::list`), then
fetches each value (`xattr::get`) one by one; a failed fetch is logged and
skipped while a failed listing is fatal.  The OS interface is embedded as an
environment of pure functions, and the logging side channel as an explicit
list of structured records.
-/

namespace RrgFsUnix

/-- A byte-preserving OS string: an opaque byte sequence
(Rust's `std::ffi::OsString` on Unix). -/
structure OsString where
  bytes : List Nat
deriving DecidableEq, Repr

/-- The byte-preserving conversion `std::os::unix::ffi::OsStringExt::from_vec`
from a raw byte vector to an `OsString`. -/
def OsString.from_vec (v : List Nat) : OsString :=
  ⟨v⟩

/-- A filesystem path (only its identity and display form matter here). -/
abbrev Path := String

/-- Classification of the I/O errors the OS can report
(`std::io::ErrorKind`, restricted to the classes the spec names). -/
inductive IoErrorKind
  | notFound
  | permissionDenied
  | unsupported
  | other
deriving DecidableEq, Repr

/-- An I/O error as reported by a failed `xattr` call (`std::io::Error`). -/
structure IoError where
  kind : IoErrorKind
deriving DecidableEq, Repr

/-- Log levels of the `log` crate that this code uses. -/
inductive LogLevel
  | warn
deriving DecidableEq, Repr

/-- A structured log record as emitted by the `warn!` invocation in
`ext_attr_value`: the attribute name, the path and the underlying cause. -/
structure LogRecord where
  level : LogLevel
  name : OsString
  path : Path
  cause : IoError
deriving DecidableEq, Repr

/-- The host OS interface used by the code: `xattr::list` enumerates the
attribute names of a path and `xattr::get` fetches the raw byte value of one
named attribute (`Ok none` for a valueless attribute). -/
structure XattrEnv where
  list : Path → Except IoError (List OsString)
  get : Path → OsString → Except IoError (Option (List Nat))

/-- An extended attribute of a file (`ExtAttr` in the source): a name and an
optional value. -/
structure ExtAttr where
  name : OsString
  value : Option OsString
deriving DecidableEq, Repr

/-- `ext_attr_value`: a tiny wrapper around `xattr::get` that on success maps
the raw bytes through `OsStringExt::from_vec`, and on error logs a warning
with the attribute name, the path and the cause, and returns `Err(())`.
The second component is the list of log records emitted by the call. -/
def ext_attr_value (env : XattrEnv) (path : Path) (name : OsString) :
    Except Unit (Option OsString) × List LogRecord :=
  match env.get path name with
  | Except.ok value => (Except.ok (value.map OsString.from_vec), [])
  | Except.error error =>
      (Except.error (), [⟨LogLevel.warn, name, path, error⟩])

/-- Iterator over extended attributes of a file (`ExtAttrs` in the source):
the borrowed path together with the not-yet-consumed part of the name
sequence returned by `xattr::list`. -/
structure ExtAttrs where
  path : Path
  iter : List OsString
deriving DecidableEq, Repr

/-- The `for name in &mut self.iter` loop inside `ExtAttrs::next`: pull names
until one whose `ext_attr_value` succeeds, skipping (`continue`) the ones that
fail; return that attribute, the remaining names and the emitted log records,
or `none` when the names run out. -/
def nextLoop (env : XattrEnv) (path : Path) :
    List OsString → Option ExtAttr × List OsString × List LogRecord
  | [] => (none, [], [])
  | name :: rest =>
      match ext_attr_value env path name with
      | (Except.ok value, logs) => (some ⟨name, value⟩, rest, logs)
      | (Except.error _, logs) =>
          let r := nextLoop env path rest
          (r.1, r.2.1, logs ++ r.2.2)

/-- `ExtAttrs::next`: one pull on the iterator.  Returns the yielded element
(if any), the iterator's state afterwards, and the log records emitted. -/
def ExtAttrs.next (env : XattrEnv) (s : ExtAttrs) :
    Option ExtAttr × ExtAttrs × List LogRecord :=
  let r := nextLoop env s.path s.iter
  (r.1, ⟨s.path, r.2.1⟩, r.2.2)

/-- `ext_attrs`: the entry point.  Calls `xattr::list` on the path; on error
propagates that error with `?`, on success wraps the path and the name
sequence into an `ExtAttrs` iterator. -/
def ext_attrs (env : XattrEnv) (path : Path) : Except IoError ExtAttrs :=
  match env.list path with
  | Except.error e => Except.error e
  | Except.ok iter => Except.ok ⟨path, iter⟩

/-- The caller's exhaustive `for` loop over the names still in the iterator:
for each name attempt `ext_attr_value`, collect the yielded attribute on
success and only the log record on failure. -/
def drainNames (env : XattrEnv) (path : Path) :
    List OsString → List ExtAttr × List LogRecord
  | [] => ([], [])
  | name :: rest =>
      match ext_attr_value env path name with
      | (Except.ok value, logs) =>
          let r := drainNames env path rest
          (⟨name, value⟩ :: r.1, logs ++ r.2)
      | (Except.error _, logs) =>
          let r := drainNames env path rest
          (r.1, logs ++ r.2)

/-- Consume an `ExtAttrs` iterator to the end, collecting the yielded
attributes and the emitted log records. -/
def ExtAttrs.drain (env : XattrEnv) (s : ExtAttrs) :
    List ExtAttr × List LogRecord :=
  drainNames env s.path s.iter

/-- A whole enumeration pass: `ext_attrs` followed by full consumption of the
iterator.  The only error channel is the one of `ext_attrs`. -/
def enumerate (env : XattrEnv) (path : Path) :
    Except IoError (List ExtAttr × List LogRecord) :=
  match ext_attrs env path with
  | Except.error e => Except.error e
  | Except.ok s => Except.ok (ExtAttrs.drain env s)

/-- The drain loop instrumented with the trace of `xattr::get` calls: the
third component records, in call order, each name passed to the fetch call.
Same control flow as `drainNames`. -/
def drainNamesT (env : XattrEnv) (path : Path) :
    List OsString → List ExtAttr × List LogRecord × List OsString
  | [] => ([], [], [])
  | name :: rest =>
      match ext_attr_value env path name with
      | (Except.ok value, logs) =>
          let r := drainNamesT env path rest
          (⟨name, value⟩ :: r.1, logs ++ r.2.1, name :: r.2.2)
      | (Except.error _, logs) =>
          let r := drainNamesT env path rest
          (r.1, logs ++ r.2.1, name :: r.2.2)

/-- The element `drainNames` yields for one listed name, if any: the listed
name with the fetched value mapped through `from_vec` when the fetch
succeeds, nothing when it fails. -/
def yieldOf (env : XattrEnv) (path : Path) (n : OsString) : Option ExtAttr :=
  match env.get path n with
  | Except.ok v => some ⟨n, v.map OsString.from_vec⟩
  | Except.error _ => none

/-- The log record `drainNames` emits for one listed name, if any: a warning
carrying the name, the path and the cause when the fetch fails, nothing when
it succeeds. -/
def logOf (env : XattrEnv) (path : Path) (n : OsString) : Option LogRecord :=
  match env.get path n with
  | Except.ok _ => none
  | Except.error e => some ⟨LogLevel.warn, n, path, e⟩

/-- Whether the fetch of a given name succeeds in the given environment. -/
def fetchOk (env : XattrEnv) (path : Path) (n : OsString) : Bool :=
  match env.get path n with
  | Except.ok _ => true
  | Except.error _ => false

theorem drainNames_nil (env : XattrEnv) (path : Path) :
    drainNames env path [] = ([], []) := rfl

theorem drainNames_cons (env : XattrEnv) (path : Path) (n : OsString)
    (rest : List OsString) :
    drainNames env path (n :: rest) =
      match env.get path n with
      | Except.ok v =>
          (⟨n, v.map OsString.from_vec⟩ :: (drainNames env path rest).1,
            (drainNames env path rest).2)
      | Except.error e =>
          ((drainNames env path rest).1,
            ⟨LogLevel.warn, n, path, e⟩ :: (drainNames env path rest).2) := by
  cases h : env.get path n <;> simp [drainNames, ext_attr_value, h]

/-- The attributes a full drain yields are exactly the per-name yields of the
successfully fetched names, in listing order. -/
theorem drainNames_items (env : XattrEnv) (path : Path)
    (names : List OsString) :
    (drainNames env path names).1 = names.filterMap (yieldOf env path) := by
  induction names with
  | nil => rfl
  | cons n rest ih =>
      rw [drainNames_cons]
      cases h : env.get path n <;> simp [yieldOf, h, ih]

/-- The log records a full drain emits are exactly the per-name warnings of
the failing names, in listing order. -/
theorem drainNames_logs (env : XattrEnv) (path : Path)
    (names : List OsString) :
    (drainNames env path names).2 = names.filterMap (logOf env path) := by
  induction names with
  | nil => rfl
  | cons n rest ih =>
      rw [drainNames_cons]
      cases h : env.get path n <;> simp [logOf, h, ih]

/-- The names of the yielded attributes are the listed names whose fetch
succeeds, in listing order. -/
theorem drainNames_names (env : XattrEnv) (path : Path)
    (names : List OsString) :
    (drainNames env path names).1.map ExtAttr.name =
      names.filter (fetchOk env path) := by
  induction names with
  | nil => rfl
  | cons n rest ih =>
      rw [drainNames_cons]
      cases h : env.get path n <;> simp [fetchOk, h, ih]

/-- When the name-pulling loop returns no element, it has consumed the whole
name sequence. -/
theorem nextLoop_none (env : XattrEnv) (path : Path) :
    ∀ names rest logs, nextLoop env path names = (none, rest, logs) →
      rest = [] := by
  intro names
  induction names with
  | nil =>
      intro rest logs h
      simpa [nextLoop] using congrArg (fun r => r.2.1) h
  | cons n tail ih =>
      intro rest logs h
      cases hg : env.get path n with
      | ok v =>
          rw [nextLoop, ext_attr_value, hg] at h
          exact absurd (congrArg (fun r => r.1) h) (by simp)
      | error e =>
          rw [nextLoop, ext_attr_value, hg] at h
          exact ih rest _ (by
            have h1 := congrArg (fun r => r.1) h
            have h2 := congrArg (fun r => r.2.1) h
            simp at h1 h2
            rw [Prod.ext_iff, Prod.ext_iff]
            exact ⟨h1, h2, rfl⟩)

/-- Draining depends on the environment only through the listing of the path
and the fetches of the listed names. -/
theorem drainNames_congr (env1 env2 : XattrEnv) (path : Path)
    (names : List OsString) (hg : ∀ n, env1.get path n = env2.get path n) :
    drainNames env1 path names = drainNames env2 path names := by
  induction names with
  | nil => rfl
  | cons n rest ih =>
      rw [drainNames_cons, drainNames_cons, hg n, ih]

/-- The instrumented drain agrees with the plain one and fetches every listed
name exactly once, in listing order. -/
theorem drainNamesT_spec (env : XattrEnv) (path : Path)
    (names : List OsString) :
    (drainNamesT env path names).1 = (drainNames env path names).1 ∧
    (drainNamesT env path names).2.1 = (drainNames env path names).2 ∧
    (drainNamesT env path names).2.2 = names := by
  induction names with
  | nil => exact ⟨rfl, rfl, rfl⟩
  | cons n rest ih =>
      rw [drainNames_cons]
      cases h : env.get path n <;>
        simp [drainNamesT, ext_attr_value, h, ih.1, ih.2.1, ih.2.2]

/-- The attribute name `a` (byte 97). -/
def na : OsString := ⟨[97]⟩

/-- The attribute name `b` (byte 98). -/
def nb : OsString := ⟨[98]⟩

/-- The attribute name `c` (byte 99). -/
def nc : OsString := ⟨[99]⟩

/-- The attribute name `d` (byte 100). -/
def nd : OsString := ⟨[100]⟩

/-- A concrete host environment used to exercise the code: path `/p` carries
attributes `a`, `b`, `c` where fetching `b` fails; `/e` has no attributes;
`/q` carries only `b`, whose fetch fails; `/v` carries the valueless
attribute `d`; every other path does not exist. -/
def envDemo : XattrEnv :=
  ⟨fun p =>
      if p = "/p" then Except.ok [na, nb, nc]
      else if p = "/e" then Except.ok []
      else if p = "/q" then Except.ok [nb]
      else if p = "/v" then Except.ok [nd]
      else Except.error ⟨IoErrorKind.notFound⟩,
    fun p n =>
      if p = "/p" then
        if n = na then Except.ok (some [49])
        else if n = nb then Except.error ⟨IoErrorKind.other⟩
        else if n = nc then Except.ok (some [51])
        else Except.ok none
      else if p = "/v" then Except.ok none
      else Except.error ⟨IoErrorKind.other⟩⟩

instance exceptDecidableEq {ε α : Type} [DecidableEq ε] [DecidableEq α] :
    DecidableEq (Except ε α) := fun x y =>
  match x, y with
  | Except.ok a, Except.ok b =>
      if h : a = b then isTrue (by rw [h])
      else isFalse (by intro hc; injection hc; contradiction)
  | Except.ok _, Except.error _ => isFalse (fun hc => Except.noConfusion hc)
  | Except.error _, Except.ok _ => isFalse (fun hc => Except.noConfusion hc)
  | Except.error e, Except.error f =>
      if h : e = f then isTrue (by rw [h])
      else isFalse (by intro hc; injection hc; contradiction)

/-- An attribute is yielded by a drain exactly when its name is listed, the
fetch of that name succeeds, and its value is the fetched bytes mapped
through `from_vec`. -/
theorem mem_drain_items (env : XattrEnv) (path : Path)
    (names : List OsString) (an : OsString) (av : Option OsString) :
    ExtAttr.mk an av ∈ (drainNames env path names).1 ↔
      an ∈ names ∧
        ∃ v, env.get path an = Except.ok v ∧
          av = v.map OsString.from_vec := by
  rw [drainNames_items, List.mem_filterMap]
  constructor
  · rintro ⟨n, hn, hy⟩
    unfold yieldOf at hy
    cases hg : env.get path n with
    | ok v =>
        rw [hg] at hy
        obtain ⟨hn', hv'⟩ : n = an ∧ v.map OsString.from_vec = av := by
          simpa [ExtAttr.mk.injEq] using hy
        subst hn'
        exact ⟨hn, v, hg, hv'.symm⟩
    | error e => rw [hg] at hy; simp at hy
  · rintro ⟨hn, v, hg, hv⟩
    refine ⟨an, hn, ?_⟩
    unfold yieldOf
    rw [hg, hv]

/-- Every log record emitted by a drain names a listed attribute whose fetch
fails, carries the drained path, the warning level and the reported cause. -/
theorem mem_drain_logs (env : XattrEnv) (path : Path)
    (names : List OsString) (lv : LogLevel) (nm : OsString) (pt : Path)
    (cs : IoError) :
    LogRecord.mk lv nm pt cs ∈ (drainNames env path names).2 ↔
      nm ∈ names ∧ lv = LogLevel.warn ∧ pt = path ∧
        env.get path nm = Except.error cs := by
  rw [drainNames_logs, List.mem_filterMap]
  constructor
  · rintro ⟨n, hn, hy⟩
    unfold logOf at hy
    cases hg : env.get path n with
    | ok v => rw [hg] at hy; simp at hy
    | error e =>
        rw [hg] at hy
        obtain ⟨hl', hn', hp', he'⟩ :
            LogLevel.warn = lv ∧ n = nm ∧ path = pt ∧ e = cs := by
          simpa [LogRecord.mk.injEq] using hy
        subst hn'
        exact ⟨hn, hl'.symm, hp'.symm, he' ▸ hg⟩
  · rintro ⟨hn, hl, hp, hg⟩
    refine ⟨nm, hn, ?_⟩
    unfold logOf
    rw [hg, hl, hp]

/-- C1: when the value fetch of a listed attribute name fails with any I/O
error, the drain yields no element with that name and no error; if the name
is listed, a log record carrying the warning level, the name, the path and
the cause is emitted; and the output is the same as if the failing name had
not been listed at all, so iteration continues over the remaining names. -/
theorem c1_fetch_failure_swallowed (env : XattrEnv) (path : Path)
    (n : OsString) (e : IoError) (names : List OsString)
    (h : env.get path n = Except.error e) :
    (∀ a ∈ (drainNames env path names).1, a.name ≠ n) ∧
    (n ∈ names →
      LogRecord.mk LogLevel.warn n path e ∈ (drainNames env path names).2) ∧
    (drainNames env path names).1 =
      (drainNames env path (names.filter (fun m => m ≠ n))).1 := by
  refine ⟨?_, ?_, ?_⟩
  · intro a ha han
    obtain ⟨an, av⟩ := a
    rcases (mem_drain_items env path names an av).1 ha with ⟨-, v, hg, -⟩
    simp only at han
    rw [han, h] at hg
    exact Except.noConfusion hg
  · intro hn
    exact (mem_drain_logs env path names LogLevel.warn n path e).2
      ⟨hn, rfl, rfl, h⟩
  · rw [drainNames_items, drainNames_items]
    induction names with
    | nil => rfl
    | cons m rest ih =>
        by_cases hm : m = n
        · subst hm
          have hy : yieldOf env path m = none := by
            unfold yieldOf; rw [h]
          simp [List.filter_cons, List.filterMap_cons, hy, ih]
        · simp [List.filter_cons, List.filterMap_cons, hm, ih]

/-- C1 witness: on path `/p` of the demo environment the fetch of `b` fails,
no yielded attribute is named `b`, a warning about `b` is logged, and the
output equals the output for the listing without `b`. -/
theorem c1_witness :
    envDemo.get "/p" nb = Except.error ⟨IoErrorKind.other⟩ ∧
    ((∀ a ∈ (drainNames envDemo "/p" [na, nb, nc]).1, a.name ≠ nb) ∧
      (nb ∈ [na, nb, nc] →
        LogRecord.mk LogLevel.warn nb "/p" ⟨IoErrorKind.other⟩ ∈
          (drainNames envDemo "/p" [na, nb, nc]).2) ∧
      (drainNames envDemo "/p" [na, nb, nc]).1 =
        (drainNames envDemo "/p"
          ([na, nb, nc].filter (fun m => m ≠ nb))).1) :=
  ⟨by decide,
    c1_fetch_failure_swallowed envDemo "/p" nb ⟨IoErrorKind.other⟩
      [na, nb, nc] (by decide)⟩

/-- C2: a whole enumeration pass fails with error `e` exactly when the
initial listing call fails with that same error `e` (so the listing error is
propagated unchanged and no attributes are produced), and whenever the
listing succeeds the pass returns an `ok` result, so no later step can
surface an error to the caller. -/
theorem c2_error_iff_listing_fails (env : XattrEnv) (path : Path) :
    (∀ e, enumerate env path = Except.error e ↔
      env.list path = Except.error e) ∧
    (∀ names, env.list path = Except.ok names →
      ∃ items logs, enumerate env path = Except.ok (items, logs)) := by
  constructor
  · intro e
    unfold enumerate ext_attrs
    cases hl : env.list path with
    | ok names => simp
    | error e0 => simp
  · intro names hl
    refine ⟨(drainNames env path names).1, (drainNames env path names).2, ?_⟩
    unfold enumerate ext_attrs ExtAttrs.drain
    rw [hl]

/-- C2 witness: in the demo environment, the path `/nope` does not exist, so
the enumeration fails with exactly the not-found error of the listing call,
while on `/p` the successful listing leads to an `ok` result. -/
theorem c2_witness :
    (enumerate envDemo "/nope" = Except.error ⟨IoErrorKind.notFound⟩ ↔
      envDemo.list "/nope" = Except.error ⟨IoErrorKind.notFound⟩) ∧
    (∃ items logs, enumerate envDemo "/p" = Except.ok (items, logs)) :=
  ⟨(c2_error_iff_listing_fails envDemo "/nope").1 ⟨IoErrorKind.notFound⟩,
    (c2_error_iff_listing_fails envDemo "/p").2 [na, nb, nc] (by decide)⟩

/-- C3 counterexample: on path `/q` the listing call succeeds with the single
name `b`, yet the enumeration produces zero attributes (the fetch of `b`
fails and the element is dropped), so the iterator does not produce exactly
one `ExtendedAttribute` per listed name. -/
theorem c3_counterexample :
    envDemo.list "/q" = Except.ok [nb] ∧
    enumerate envDemo "/q" =
      Except.ok ([], [LogRecord.mk LogLevel.warn nb "/q" ⟨IoErrorKind.other⟩]) ∧
    ¬ ((drainNames envDemo "/q" [nb]).1.length = [nb].length) :=
  ⟨by decide, by decide, by decide⟩

/-- C3 amended: for every path whose listing call succeeds, the iterator
produces exactly one `ExtendedAttribute` per listed name whose value fetch
succeeds, in listing order (names whose fetch fails are skipped); each
produced element has its name equal to the listed name and value
`some (fetched value)`, or value `none` if the platform reports the
attribute as valueless. -/
theorem c3_one_per_fetched_name (env : XattrEnv) (path : Path)
    (names : List OsString) (items : List ExtAttr) (logs : List LogRecord)
    (hl : env.list path = Except.ok names)
    (he : enumerate env path = Except.ok (items, logs)) :
    items = names.filterMap (yieldOf env path) ∧
    (∀ n v, env.get path n = Except.ok v →
      yieldOf env path n = some (ExtAttr.mk n (v.map OsString.from_vec))) ∧
    (∀ n e, env.get path n = Except.error e → yieldOf env path n = none) := by
  have he' : drainNames env path names = (items, logs) := by
    simp only [enumerate, ext_attrs, hl, ExtAttrs.drain] at he
    simpa using he
  refine ⟨?_, ?_, ?_⟩
  · have := drainNames_items env path names
    rw [he'] at this
    exact this
  · intro n v hg
    unfold yieldOf
    rw [hg]
  · intro n e hg
    unfold yieldOf
    rw [hg]

/-- C3 amended witness: on path `/p` of the demo environment the listing is
`[a, b, c]`, the fetch of `b` fails, and the output is exactly the attributes
for `a` and `c`, in listing order, with their fetched values. -/
theorem c3_witness :
    envDemo.list "/p" = Except.ok [na, nb, nc] ∧
    enumerate envDemo "/p" =
      Except.ok ([ExtAttr.mk na (some ⟨[49]⟩), ExtAttr.mk nc (some ⟨[51]⟩)],
        [LogRecord.mk LogLevel.warn nb "/p" ⟨IoErrorKind.other⟩]) ∧
    ([ExtAttr.mk na (some ⟨[49]⟩), ExtAttr.mk nc (some ⟨[51]⟩)] =
        [na, nb, nc].filterMap (yieldOf envDemo "/p") ∧
      (∀ n v, envDemo.get "/p" n = Except.ok v →
        yieldOf envDemo "/p" n =
          some (ExtAttr.mk n (v.map OsString.from_vec))) ∧
      (∀ n e, envDemo.get "/p" n = Except.error e →
        yieldOf envDemo "/p" n = none)) :=
  ⟨by decide, by decide,
    c3_one_per_fetched_name envDemo "/p" [na, nb, nc]
      [ExtAttr.mk na (some ⟨[49]⟩), ExtAttr.mk nc (some ⟨[51]⟩)]
      [LogRecord.mk LogLevel.warn nb "/p" ⟨IoErrorKind.other⟩]
      (by decide) (by decide)⟩

/-- C4: every enumeration pass terminates with the exhaustion of the name
sequence as its only terminal condition: the yielded elements are no more
numerous than the listed names; whenever `next` reports the end it has
consumed the whole name sequence; on an exhausted sequence `next` ends
silently without error or log; and for a path whose listing succeeds with
zero names the pass succeeds with an empty output. -/
theorem c4_termination (env : XattrEnv) :
    (∀ path names, (drainNames env path names).1.length ≤ names.length) ∧
    (∀ s s2 logs, ExtAttrs.next env s = (none, s2, logs) → s2.iter = []) ∧
    (∀ path, ExtAttrs.next env (ExtAttrs.mk path []) =
      (none, ExtAttrs.mk path [], [])) ∧
    (∀ path, env.list path = Except.ok [] →
      enumerate env path = Except.ok ([], [])) := by
  refine ⟨?_, ?_, ?_, ?_⟩
  · intro path names
    rw [drainNames_items]
    exact List.length_filterMap_le _ _
  · intro s s2 logs h
    unfold ExtAttrs.next at h
    have h1 : (nextLoop env s.path s.iter).1 = none := by
      have := congrArg (fun p => p.1) h
      simpa using this
    have h2 : ExtAttrs.mk s.path (nextLoop env s.path s.iter).2.1 = s2 := by
      have := congrArg (fun p => p.2.1) h
      simpa using this
    have hr : nextLoop env s.path s.iter =
        (none, (nextLoop env s.path s.iter).2.1,
          (nextLoop env s.path s.iter).2.2) := by
      rw [← h1]
    have hit := nextLoop_none env s.path s.iter _ _ hr
    rw [← h2]
    exact hit
  · intro path
    rfl
  · intro path hl
    simp only [enumerate, ext_attrs, hl, ExtAttrs.drain]
    rfl

/-- C4 witness: path `/e` of the demo environment has zero extended
attributes; the listing succeeds and the enumeration yields the empty
sequence with no logs. -/
theorem c4_witness :
    envDemo.list "/e" = Except.ok [] ∧
    enumerate envDemo "/e" = Except.ok ([], []) :=
  ⟨by decide, (c4_termination envDemo).2.2.2 "/e" (by decide)⟩

/-- C5: the log records a pass emits are exactly one warning per listed name
whose fetch fails (carrying that name, the path and the cause) and none for
a successful fetch, their number being the number of failing listed names;
in the concrete `{a, b, c}` scenario of the demo environment where only the
fetch of `b` fails, the output holds `a` and `c` with their values, omits
`b`, and exactly one warning referencing `b` is recorded. -/
theorem c5_one_warning_per_failure (env : XattrEnv) (path : Path)
    (names : List OsString) :
    (drainNames env path names).2 = names.filterMap (logOf env path) ∧
    (∀ n, fetchOk env path n = true → logOf env path n = none) ∧
    (drainNames env path names).2.length =
      (names.filter (fun m => !fetchOk env path m)).length ∧
    enumerate envDemo "/p" =
      Except.ok ([ExtAttr.mk na (some ⟨[49]⟩), ExtAttr.mk nc (some ⟨[51]⟩)],
        [LogRecord.mk LogLevel.warn nb "/p" ⟨IoErrorKind.other⟩]) := by
  refine ⟨drainNames_logs env path names, ?_, ?_, by decide⟩
  · intro n hok
    unfold fetchOk at hok
    unfold logOf
    cases hg : env.get path n with
    | ok v => rfl
    | error e => rw [hg] at hok; simp at hok
  · rw [drainNames_logs]
    induction names with
    | nil => rfl
    | cons m rest ih =>
        rw [List.filterMap_cons, List.filter_cons]
        cases hg : env.get path m with
        | ok v => simp [logOf, fetchOk, hg, ih]
        | error e => simp [logOf, fetchOk, hg, ih]

/-- C5 witness: in the demo environment the fetch of `a` on `/p` succeeds and
no log record is emitted for it. -/
theorem c5_witness :
    fetchOk envDemo "/p" na = true ∧ logOf envDemo "/p" na = none :=
  ⟨by decide,
    (c5_one_warning_per_failure envDemo "/p" [na]).2.1 na (by decide)⟩

/-- C6: for an attribute whose fetch succeeds but reports no value,
`ext_attr_value` returns `Ok none` without logging; the drain yields the
entry with value `none` whenever the name is listed, and emits no log record
for that attribute. -/
theorem c6_valueless_attribute (env : XattrEnv) (path : Path) (n : OsString)
    (names : List OsString) (h : env.get path n = Except.ok none) :
    ext_attr_value env path n = (Except.ok none, []) ∧
    (n ∈ names → ExtAttr.mk n none ∈ (drainNames env path names).1) ∧
    (∀ r ∈ (drainNames env path names).2, r.name ≠ n) := by
  refine ⟨?_, ?_, ?_⟩
  · unfold ext_attr_value
    rw [h]
    rfl
  · intro hn
    exact (mem_drain_items env path names n none).2 ⟨hn, none, h, rfl⟩
  · intro r hr hrn
    obtain ⟨lv, nm, pt, cs⟩ := r
    rcases (mem_drain_logs env path names lv nm pt cs).1 hr with ⟨-, -, -, hg⟩
    simp only at hrn
    rw [hrn, h] at hg
    exact Except.noConfusion hg

/-- C6 witness: on path `/v` of the demo environment the attribute `d` is
valueless; its entry is yielded with value `none` and no warning about `d`
is logged. -/
theorem c6_witness :
    envDemo.get "/v" nd = Except.ok none ∧
    (ext_attr_value envDemo "/v" nd = (Except.ok none, []) ∧
      (nd ∈ [nd] → ExtAttr.mk nd none ∈ (drainNames envDemo "/v" [nd]).1) ∧
      (∀ r ∈ (drainNames envDemo "/v" [nd]).2, r.name ≠ nd)) :=
  ⟨by decide, c6_valueless_attribute envDemo "/v" nd [nd] (by decide)⟩

/-- C7: one enumeration pass is single-pass with no duplicates: each listed
name is passed to the fetch call exactly once, in listing order and with no
retry; the instrumented and plain drains yield the same attributes; the
yielded names form a subsequence of the listed names (no reordering); and
when the listed names are distinct no attribute name is yielded twice. -/
theorem c7_single_pass (env : XattrEnv) (path : Path)
    (names : List OsString) :
    (drainNamesT env path names).2.2 = names ∧
    (drainNamesT env path names).1 = (drainNames env path names).1 ∧
    List.Sublist ((drainNames env path names).1.map ExtAttr.name) names ∧
    (names.Nodup → ((drainNames env path names).1.map ExtAttr.name).Nodup) := by
  refine ⟨(drainNamesT_spec env path names).2.2,
    (drainNamesT_spec env path names).1, ?_, ?_⟩
  · rw [drainNames_names]
    exact List.filter_sublist names
  · intro hnd
    rw [drainNames_names]
    exact hnd.filter _

/-- C7 witness: the listing `[a, b, c]` of path `/p` has no duplicate names,
and the names of the yielded attributes have no duplicates either. -/
theorem c7_witness :
    [na, nb, nc].Nodup ∧
    ((drainNames envDemo "/p" [na, nb, nc]).1.map ExtAttr.name).Nodup :=
  ⟨by decide, (c7_single_pass envDemo "/p" [na, nb, nc]).2.2.2 (by decide)⟩

/-- C8: two enumeration passes over the same unmodified path — that is, two
runs in which the listing call and every fetch call return identical
results — yield attribute collections that are equal as multisets of
(name, value) pairs. -/
theorem c8_two_runs_equal (env1 env2 : XattrEnv) (path : Path)
    (hl : env1.list path = env2.list path)
    (hg : ∀ n, env1.get path n = env2.get path n)
    (items1 : List ExtAttr) (logs1 : List LogRecord)
    (items2 : List ExtAttr) (logs2 : List LogRecord)
    (h1 : enumerate env1 path = Except.ok (items1, logs1))
    (h2 : enumerate env2 path = Except.ok (items2, logs2)) :
    (↑(items1.map (fun a => (a.name, a.value))) :
        Multiset (OsString × Option OsString)) =
      ↑(items2.map (fun a => (a.name, a.value))) := by
  have heq : enumerate env1 path = enumerate env2 path := by
    unfold enumerate ext_attrs
    rw [hl]
    cases h : env2.list path with
    | ok names =>
        simp only [ExtAttrs.drain]
        rw [drainNames_congr env1 env2 path names hg]
    | error e => rfl
  rw [heq, h2] at h1
  have hp : (items2, logs2) = (items1, logs1) := by
    injection h1
  have hi : items2 = items1 := congrArg Prod.fst hp
  rw [hi]

/-- C8 witness: two passes in the demo environment over the unmodified path
`/p` yield the same multiset of (name, value) pairs. -/
theorem c8_witness :
    (↑([ExtAttr.mk na (some ⟨[49]⟩), ExtAttr.mk nc (some ⟨[51]⟩)].map
        (fun a => (a.name, a.value))) :
      Multiset (OsString × Option OsString)) =
      ↑([ExtAttr.mk na (some ⟨[49]⟩), ExtAttr.mk nc (some ⟨[51]⟩)].map
        (fun a => (a.name, a.value))) :=
  c8_two_runs_equal envDemo envDemo "/p" rfl (fun _ => rfl)
    [ExtAttr.mk na (some ⟨[49]⟩), ExtAttr.mk nc (some ⟨[51]⟩)]
    [LogRecord.mk LogLevel.warn nb "/p" ⟨IoErrorKind.other⟩]
    [ExtAttr.mk na (some ⟨[49]⟩), ExtAttr.mk nc (some ⟨[51]⟩)]
    [LogRecord.mk LogLevel.warn nb "/p" ⟨IoErrorKind.other⟩]
    (by decide) (by decide)

/-- C9: values pass through unchanged: `from_vec` preserves the raw bytes
exactly; a successful fetch of bytes `bs` yields `some (from_vec bs)` with
no log; and every attribute a drain yields carries a listed name verbatim
and exactly the fetched byte sequence mapped through `from_vec`. -/
theorem c9_value_verbatim (env : XattrEnv) (path : Path)
    (names : List OsString) :
    (∀ v, (OsString.from_vec v).bytes = v) ∧
    (∀ n bs, env.get path n = Except.ok (some bs) →
      ext_attr_value env path n =
        (Except.ok (some (OsString.from_vec bs)), [])) ∧
    (∀ a ∈ (drainNames env path names).1,
      a.name ∈ names ∧
        ∃ v, env.get path a.name = Except.ok v ∧
          a.value = v.map OsString.from_vec) := by
  refine ⟨fun v => rfl, ?_, ?_⟩
  · intro n bs hg
    unfold ext_attr_value
    rw [hg]
    rfl
  · intro a ha
    obtain ⟨an, av⟩ := a
    simpa using (mem_drain_items env path names an av).1 ha

/-- C9 witness: on `/p` the fetch of `a` returns the bytes `[49]` and the
yielded value is exactly `from_vec [49]`, with no log record. -/
theorem c9_witness :
    envDemo.get "/p" na = Except.ok (some [49]) ∧
    ext_attr_value envDemo "/p" na =
      (Except.ok (some (OsString.from_vec [49])), []) :=
  ⟨by decide, (c9_value_verbatim envDemo "/p" [na]).2.1 na [49] (by decide)⟩

/-- C10: once `next` reports exhaustion, it stays exhausted: whenever a call
to `next` returns no element, the next call on the resulting state again
returns no element (and emits no log), so the iterator never resumes after
reporting the end. -/
theorem c10_end_is_final (env : XattrEnv) (s s2 : ExtAttrs)
    (logs : List LogRecord) (h : ExtAttrs.next env s = (none, s2, logs)) :
    ExtAttrs.next env s2 = (none, s2, []) := by
  unfold ExtAttrs.next at h
  have h1 : (nextLoop env s.path s.iter).1 = none := by
    have := congrArg (fun p => p.1) h
    simpa using this
  have h2 : ExtAttrs.mk s.path (nextLoop env s.path s.iter).2.1 = s2 := by
    have := congrArg (fun p => p.2.1) h
    simpa using this
  have hr : nextLoop env s.path s.iter =
      (none, (nextLoop env s.path s.iter).2.1,
        (nextLoop env s.path s.iter).2.2) := by
    rw [← h1]
  have hit := nextLoop_none env s.path s.iter _ _ hr
  rw [← h2, hit]
  rfl

/-- C10 witness: on path `/q` the single listed name fails to fetch, `next`
reports the end after consuming it, and the next call on the resulting
state again reports the end with no log. -/
theorem c10_witness :
    ExtAttrs.next envDemo (ExtAttrs.mk "/q" [nb]) =
      (none, ExtAttrs.mk "/q" [],
        [LogRecord.mk LogLevel.warn nb "/q" ⟨IoErrorKind.other⟩]) ∧
    ExtAttrs.next envDemo (ExtAttrs.mk "/q" []) =
      (none, ExtAttrs.mk "/q" [], []) :=
  ⟨by decide,
    c10_end_is_final envDemo (ExtAttrs.mk "/q" [nb]) (ExtAttrs.mk "/q" [])
      [LogRecord.mk LogLevel.warn nb "/q" ⟨IoErrorKind.other⟩] (by decide)⟩

end RrgFsUnix
